import Mathlib

/-!
Shallow embedding of `merge_image_metadata/merge_image_metadata.py`.

Strings are modelled as `List Char`; Python's `str.split(sep)` for the three
two-character separators used by the script (`", "`, `"\r\n"`, `": "`) is
modelled by `split2`, Python's `sep.join` by `joinSep`, and `list(set(xs))`
by `List.dedup` (the claims under verification only depend on membership and
duplicate-freedom, never on the order `set` happens to produce).

The external `exiftool` collaborator is modelled by its observable behaviour:
a read is a function from an image path to the textual output the script
parses, and a write is the parameter list the script passes to
`subprocess.run` (the script's side effects are fully determined by that
list).
-/

namespace MergeImageMetadata

/-- Re-attach a character to the first piece of a split result
(the `else` branch of the scanner keeps the current character inside the
current piece). -/
def consHead (c : Char) : List (List Char) → List (List Char)
  | [] => [[c]]
  | t :: ts => (c :: t) :: ts

/-- Python's `str.split(sep)` for a two-character separator `[a, b]`:
scan left to right, cut at each leftmost non-overlapping occurrence. -/
def split2 (a b : Char) : List Char → List (List Char)
  | [] => [[]]
  | [c] => [[c]]
  | c :: d :: rest =>
    if c = a ∧ d = b then [] :: split2 a b rest
    else consHead c (split2 a b (d :: rest))

/-- Whether the two-character pattern `[a, b]` occurs (as two adjacent
characters) in the string. -/
def hasPair (a b : Char) : List Char → Bool
  | [] => false
  | [_] => false
  | c :: d :: rest => (decide (c = a) && decide (d = b)) || hasPair a b (d :: rest)

/-- Python's `sep.join` for the two-character separator `[a, b]`. -/
def joinSep (a b : Char) : List (List Char) → List Char
  | [] => []
  | [t] => t
  | t :: ts => t ++ a :: b :: joinSep a b ts

/-- `list(set((", ".join(vals)).split(", ")))` — the per-field merge
expression of `merge_metadata` (lines 124, 131, 132). -/
def mergeField (vals : List (List Char)) : List (List Char) :=
  (split2 ',' ' ' (joinSep ',' ' ' vals)).dedup

/-- `output.split("\r\n")[i].split(": ")[1]`, with `none` for the
`IndexError` cases (line index out of range, or no `": "` in the line).
For `i = 0` the script uses `split("\r\n", 1)[0]`, whose element `0`
coincides with that of the full split. -/
def getField (output : List Char) (i : Nat) : Option (List Char) :=
  match (split2 '\r' '\n' output)[i]? with
  | none => none
  | some line => (split2 ':' ' ' line)[1]?

/-- The three accumulator lists of `merge_metadata` (lines 109-111). -/
structure ParseAcc where
  keywords : List (List Char)
  subject : List (List Char)
  hier : List (List Char)
  deriving Repr, DecidableEq

/-- The empty accumulators `keywords = []`, `subject = []`,
`hierarchicalsubject = []`. -/
def initAcc : ParseAcc := ⟨[], [], []⟩

/-- One iteration of the `for file in (image1_path, image2_path)` loop of
`merge_metadata` (lines 113-122): the three appends run in order inside a
single `try`, so the first `IndexError` aborts the remaining appends for
this file (`except IndexError: continue`). -/
def processFile (acc : ParseAcc) (output : List Char) : ParseAcc :=
  match getField output 0 with
  | none => acc
  | some k =>
    let acc1 : ParseAcc := ⟨acc.keywords ++ [k], acc.subject, acc.hier⟩
    match getField output 1 with
    | none => acc1
    | some s =>
      let acc2 : ParseAcc := ⟨acc1.keywords, acc1.subject ++ [s], acc1.hier⟩
      match getField output 2 with
      | none => acc2
      | some h => ⟨acc2.keywords, acc2.subject, acc2.hier ++ [h]⟩

/-- `merge_metadata(image1_path, image2_path)` (lines 83-134), abstracted
over the exiftool outputs for the two images: parse both outputs, then
join-split-dedup each field. Returns
`(keywords_list, subject_list, hierarchicalsubject_list)`. -/
def merge_metadata (out1 out2 : List Char) :
    List (List Char) × List (List Char) × List (List Char) :=
  let acc := processFile (processFile initAcc out1) out2
  (mergeField acc.keywords, mergeField acc.subject, mergeField acc.hier)

/-- `-Keywords+=` -/
def kwFlag : List Char := ("-Keywords+=").data

/-- `-Subject+=` -/
def subjFlag : List Char := ("-Subject+=").data

/-- `-HierarchicalSubject+=` -/
def hierFlag : List Char := ("-HierarchicalSubject+=").data

/-- The fixed first five parameters of the write invocation
(lines 154-160). -/
def baseParams : List (List Char) :=
  [("exiftool").data, ("-overwrite_original").data, ("-L").data,
   ("-charset").data, ("filename=cp1252").data]

/-- `apply_metadata(image_path, keywords, subjects, hierarchicalsubjects)`
(lines 137-180), modelled as the parameter list handed to `subprocess.run`:
one additive `+=` directive per value of each list, then the image path. -/
def apply_metadata (image_path : List Char) (keywords subjects hierarchicalsubjects :
    List (List Char)) : List (List Char) :=
  baseParams
    ++ keywords.map (fun k => kwFlag ++ k)
    ++ subjects.map (fun s => subjFlag ++ s)
    ++ hierarchicalsubjects.map (fun h => hierFlag ++ h)
    ++ [image_path]

/-- `image1_hash - image2_hash` for `imagehash.ImageHash` values: the number
of positions at which the two (equal-length) bit arrays differ. -/
def hashDiff (h1 h2 : List Bool) : Nat :=
  (List.zip h1 h2).countP (fun p => decide (p.1 ≠ p.2))

/-- `compare_image_hashes(image1_hash, image2_hash, max_difference)`
(lines 58-80): `image1_hash - image2_hash <= max_difference`. -/
def compare_image_hashes (h1 h2 : List Bool) (max_difference : Nat := 1) : Bool :=
  hashDiff h1 h2 ≤ max_difference

/-- The pairs `(image1, image2)` the double loop of `compare_all_images`
(lines 209-211) lets through its `if image1 < image2` guard, in loop
order. Paths are strings, compared lexicographically as Python's `<` on
`str` does. -/
def consideredPairs (keys : List (List Char)) : List (List Char × List Char) :=
  keys.flatMap (fun a => keys.flatMap (fun b => if a < b then [(a, b)] else []))

/-- `compare_all_images` (lines 183-225), abstracted over the hash
dictionary (`image_dict`, an association list with distinct keys) and the
exiftool read output of each image. The result is the sequence of
`apply_metadata` invocations, each recorded as the target path together
with the three merged lists passed to it; the hash comparison uses the
default `max_difference = 1`. -/
def compare_all_images (images : List (List Char × List Bool))
    (readOut : List Char → List Char) :
    List (List Char × (List (List Char) × List (List Char) × List (List Char))) :=
  images.flatMap (fun p1 => images.flatMap (fun p2 =>
    if p1.1 < p2.1 then
      if compare_image_hashes p1.2 p2.2 1 then
        let m := merge_metadata (readOut p1.1) (readOut p2.1)
        [(p1.1, m), (p2.1, m)]
      else []
    else []))

/-- The outcome of `main()` (lines 228-239): either print the module
docstring and `sys.exit(1)`, or call `compare_all_images(folder)` with the
parsed folder and verbosity. -/
inductive MainResult where
  | usageExit : MainResult
  | run : String → Bool → MainResult
  deriving Repr, DecidableEq

/-- `main()` (lines 228-239) as a function of `sys.argv` (element 0 is the
program name): if `len(sys.argv) not in (2, 3)` print the usage text and
exit with status 1, else fold over `sys.argv[1:]` setting verbosity on
`-v` and taking any other argument as the folder (initially `""`). -/
def pymain (argv : List String) : MainResult :=
  if argv.length ≠ 2 ∧ argv.length ≠ 3 then MainResult.usageExit
  else
    let st := argv.tail.foldl
      (fun (st : String × Bool) arg => if arg = "-v" then (st.1, true) else (arg, st.2))
      ("", false)
    MainResult.run st.1 st.2

/-! ### Helper lemmas about the split/join model -/

/-- Induction principle matching the two-characters-at-a-time recursion of
`split2`, `hasPair` and `joinSep`. -/
theorem twoStepInduction {motive : List Char → Prop} (h0 : motive [])
    (h1 : ∀ c, motive [c])
    (h2 : ∀ c d t, motive t → motive (d :: t) → motive (c :: d :: t)) :
    ∀ s, motive s := by
  have key : ∀ n (s : List Char), s.length ≤ n → motive s := by
    intro n
    induction n with
    | zero =>
      intro s hs
      cases s with
      | nil => exact h0
      | cons c t => simp at hs
    | succ n ih =>
      intro s hs
      match s with
      | [] => exact h0
      | [c] => exact h1 c
      | c :: d :: t =>
        have hlen : t.length + 2 ≤ n + 1 := by simpa using hs
        exact h2 c d t (ih t (by omega)) (ih (d :: t) (by simp; omega))
  exact fun s => key s.length s le_rfl

theorem consHead_ne_nil (c : Char) (l : List (List Char)) : consHead c l ≠ [] := by
  cases l <;> simp [consHead]

theorem split2_cons₂ (a b c d : Char) (r : List Char) :
    split2 a b (c :: d :: r) =
      if c = a ∧ d = b then [] :: split2 a b r
      else consHead c (split2 a b (d :: r)) := by
  simp [split2]

theorem split2_ne_nil (a b : Char) (s : List Char) : split2 a b s ≠ [] := by
  match s with
  | [] => simp [split2]
  | [c] => simp [split2]
  | c :: d :: r =>
    simp only [split2]
    split
    · simp
    · exact consHead_ne_nil _ _

theorem consHead_append (c : Char) (L X : List (List Char)) (h : L ≠ []) :
    consHead c (L ++ X) = consHead c L ++ X := by
  cases L with
  | nil => exact absurd rfl h
  | cons t ts => simp [consHead]

/-- Splitting never sees a separator occurrence that straddles the boundary
of `s1 ++ sep ++ s2` (because the two separator characters differ), so a
split distributes over such a concatenation. -/
theorem split2_append_sep {a b : Char} (hab : a ≠ b) (s2 : List Char) :
    ∀ s1, split2 a b (s1 ++ a :: b :: s2) = split2 a b s1 ++ split2 a b s2 := by
  intro s1
  induction s1 using twoStepInduction with
  | h0 => simp [split2]
  | h1 c =>
    have hc : ¬(c = a ∧ a = b) := fun h => hab h.2
    simp [split2, hc, consHead]
  | h2 c d t iht ihdt =>
    by_cases hcd : c = a ∧ d = b
    · rw [List.cons_append, List.cons_append, split2_cons₂, if_pos hcd, iht,
        split2_cons₂, if_pos hcd]
      rfl
    · have hne := split2_ne_nil a b (d :: t)
      rw [List.cons_append, List.cons_append, split2_cons₂, if_neg hcd, ← List.cons_append,
        ihdt, consHead_append c _ _ hne, split2_cons₂, if_neg hcd]

theorem split2_of_hasPair_eq_false {a b : Char} :
    ∀ s, hasPair a b s = false → split2 a b s = [s] := by
  intro s
  induction s using twoStepInduction with
  | h0 => intro _; simp [split2]
  | h1 c => intro _; simp [split2]
  | h2 c d t iht ihdt =>
    intro h
    simp only [hasPair, Bool.or_eq_false_iff, Bool.and_eq_false_iff,
      decide_eq_false_iff_not] at h
    have hcd : ¬(c = a ∧ d = b) := by
      rcases h.1 with h1 | h1
      · exact fun hx => h1 hx.1
      · exact fun hx => h1 hx.2
    simp [split2, hcd, ihdt h.2, consHead]

/-- The first piece of a split of `c :: cs` is empty or starts with `c`. -/
theorem split2_headShape (a b c : Char) (cs : List Char) :
    ∀ {t : List Char} {ts : List (List Char)}, split2 a b (c :: cs) = t :: ts →
      t = [] ∨ ∃ u, t = c :: u := by
  intro t ts heq
  cases cs with
  | nil =>
    simp [split2] at heq
    exact Or.inr ⟨[], heq.1.symm⟩
  | cons d r =>
    simp only [split2] at heq
    split at heq
    · injection heq with h1 h2
      exact Or.inl h1.symm
    · cases hx : split2 a b (d :: r) with
      | nil => exact absurd hx (split2_ne_nil a b _)
      | cons u us =>
        rw [hx] at heq
        simp only [consHead] at heq
        injection heq with h1 h2
        exact Or.inr ⟨u, h1.symm⟩

/-- No piece produced by `split2` contains the separator pattern. -/
theorem hasPair_of_mem_split2 {a b : Char} :
    ∀ s, ∀ t ∈ split2 a b s, hasPair a b t = false := by
  intro s
  induction s using twoStepInduction with
  | h0 => intro t ht; simp [split2] at ht; simp [ht, hasPair]
  | h1 c => intro t ht; simp [split2] at ht; simp [ht, hasPair]
  | h2 c d r iht ihdt =>
    intro t ht
    by_cases hcd : c = a ∧ d = b
    · rw [split2_cons₂, if_pos hcd, List.mem_cons] at ht
      rcases ht with rfl | ht
      · simp [hasPair]
      · exact iht t ht
    · rw [split2_cons₂, if_neg hcd] at ht
      cases hx : split2 a b (d :: r) with
      | nil => exact absurd hx (split2_ne_nil a b _)
      | cons u us =>
        rw [hx] at ht
        simp only [consHead, List.mem_cons] at ht
        rcases ht with rfl | ht
        · have hu : hasPair a b u = false := ihdt u (hx ▸ List.mem_cons_self u us)
          cases hu' : u with
          | nil => simp [hasPair]
          | cons e u' =>
            have hshape : u = [] ∨ ∃ w, u = d :: w := split2_headShape a b d r hx
            rcases hshape with h' | ⟨w, hw⟩
            · exact absurd (h'.symm.trans hu') (by simp)
            · have hed : e = d := by
                rw [hw] at hu'
                injection hu' with h1 h2
                exact h1.symm
              have hcde : ¬(c = a ∧ e = b) := fun hx' => hcd ⟨hx'.1, hed ▸ hx'.2⟩
              rw [hu'] at hu
              simp only [hasPair, Bool.or_eq_false_iff, Bool.and_eq_false_iff,
                decide_eq_false_iff_not]
              refine ⟨?_, hu⟩
              by_cases hca : c = a
              · exact Or.inr (fun heb => hcde ⟨hca, heb⟩)
              · exact Or.inl hca
        · exact ihdt t (hx ▸ List.mem_cons_of_mem u ht)

/-- Splitting the join of a nonempty list of pieces yields the concatenation
of the splits of the pieces. -/
theorem split2_joinSep {a b : Char} (hab : a ≠ b) :
    ∀ l : List (List Char), l ≠ [] →
      split2 a b (joinSep a b l) = l.flatMap (split2 a b) := by
  intro l
  induction l with
  | nil => intro h; exact absurd rfl h
  | cons t rest ih =>
    intro _
    cases rest with
    | nil => simp [joinSep, List.flatMap_cons]
    | cons u rest' =>
      rw [show joinSep a b (t :: u :: rest') = t ++ a :: b :: joinSep a b (u :: rest') from rfl,
        split2_append_sep hab _ t, ih (by simp)]
      simp [List.flatMap_cons]

theorem flatMap_split2_eq_self {a b : Char} :
    ∀ l : List (List Char), (∀ t ∈ l, hasPair a b t = false) →
      l.flatMap (split2 a b) = l := by
  intro l
  induction l with
  | nil => intro _; simp
  | cons t rest ih =>
    intro htoks
    rw [List.flatMap_cons, split2_of_hasPair_eq_false t (htoks t (List.mem_cons_self t rest)),
      ih (fun u hu => htoks u (List.mem_cons_of_mem t hu))]
    rfl

/-- Splitting the join of separator-free pieces recovers exactly the
pieces. -/
theorem split2_joinSep_eq {a b : Char} (hab : a ≠ b) :
    ∀ l : List (List Char), l ≠ [] → (∀ t ∈ l, hasPair a b t = false) →
      split2 a b (joinSep a b l) = l := by
  intro l hne htoks
  rw [split2_joinSep hab l hne]
  exact flatMap_split2_eq_self l htoks

/-- The first piece of any split is a prefix of the input. -/
theorem split2_head_isPre {a b : Char} :
    ∀ s, ∀ {t : List Char} {ts : List (List Char)}, split2 a b s = t :: ts → t <+: s := by
  intro s
  induction s using twoStepInduction with
  | h0 => intro t ts h; simp [split2] at h; simp [h]
  | h1 c => intro t ts h; simp [split2] at h; simp [h]
  | h2 c d r iht ihdt =>
    intro t ts h
    simp only [split2] at h
    split at h
    · injection h with h1 h2
      simp [h1.symm]
    · cases hx : split2 a b (d :: r) with
      | nil => exact absurd hx (split2_ne_nil a b _)
      | cons u us =>
        rw [hx] at h
        simp only [consHead] at h
        injection h with h1 h2
        have hu : u <+: d :: r := ihdt hx
        rw [← h1, List.cons_prefix_cons]
        exact ⟨rfl, hu⟩

/-- When the separator occurs in the input, the first piece is strictly
shorter (by at least the separator's two characters). -/
theorem split2_head_lt_of_hasPair {a b : Char} :
    ∀ s, hasPair a b s = true →
      ∀ {t : List Char} {ts : List (List Char)}, split2 a b s = t :: ts →
        t.length + 2 ≤ s.length := by
  intro s
  induction s using twoStepInduction with
  | h0 => intro h; simp [hasPair] at h
  | h1 c => intro h; simp [hasPair] at h
  | h2 c d r iht ihdt =>
    intro h t ts heq
    simp only [split2] at heq
    split at heq
    · injection heq with h1 h2
      simp [h1.symm]
    · rename_i hcd
      have hdr : hasPair a b (d :: r) = true := by
        simp only [hasPair, Bool.or_eq_true, Bool.and_eq_true, decide_eq_true_eq] at h
        rcases h with h | h
        · exact absurd h hcd
        · exact h
      cases hx : split2 a b (d :: r) with
      | nil => exact absurd hx (split2_ne_nil a b _)
      | cons u us =>
        rw [hx] at heq
        simp only [consHead] at heq
        injection heq with h1 h2
        have hlen := ihdt hdr hx
        rw [← h1]
        simp only [List.length_cons] at hlen ⊢
        omega

/-- A zero bit-difference between equal-length fingerprints means they are
bit-identical. -/
theorem hashDiff_eq_zero_iff :
    ∀ h1 h2 : List Bool, h1.length = h2.length → (hashDiff h1 h2 = 0 ↔ h1 = h2) := by
  intro h1
  induction h1 with
  | nil =>
    intro h2 hlen
    cases h2 with
    | nil => simp [hashDiff]
    | cons y t2 => simp at hlen
  | cons x t1 ih =>
    intro h2 hlen
    cases h2 with
    | nil => simp at hlen
    | cons y t2 =>
      have hlen' : t1.length = t2.length := by simpa using hlen
      by_cases hxy : x = y
      · subst hxy
        have hstep : hashDiff (x :: t1) (x :: t2) = hashDiff t1 t2 := by
          simp [hashDiff, List.zip_cons_cons, List.countP_cons]
        rw [hstep, ih t2 hlen']
        simp
      · have hstep : hashDiff (x :: t1) (y :: t2) = hashDiff t1 t2 + 1 := by
          simp [hashDiff, List.zip_cons_cons, List.countP_cons, hxy]
        rw [hstep]
        simp [hxy]

/-- C7: matching is monotonic in the threshold -- a pair matched by
`compare_image_hashes` at `max_difference = t` is also matched at `t + 1`;
at threshold `0` only bit-identical fingerprints (of equal length) match;
and a distance exactly equal to the threshold counts as a match. -/
theorem C7_threshold_monotone (h1 h2 : List Bool) (t : Nat)
    (hlen : h1.length = h2.length) :
    (compare_image_hashes h1 h2 t = true → compare_image_hashes h1 h2 (t + 1) = true)
    ∧ (compare_image_hashes h1 h2 0 = true ↔ h1 = h2)
    ∧ (hashDiff h1 h2 = t → compare_image_hashes h1 h2 t = true) := by
  refine ⟨?_, ?_, ?_⟩
  · intro h
    simp only [compare_image_hashes, decide_eq_true_eq] at h ⊢
    omega
  · simp only [compare_image_hashes, decide_eq_true_eq, Nat.le_zero]
    exact hashDiff_eq_zero_iff h1 h2 hlen
  · intro h
    simp [compare_image_hashes, h]

theorem C7_threshold_monotone_witness :
    compare_image_hashes [true, false] [true, false] 0 = true :=
  ((C7_threshold_monotone [true, false] [true, false] 0 rfl).2.1).mpr rfl

theorem mem_pairGuard {a b x y : List Char} :
    (x, y) ∈ (if a < b then [(a, b)] else ([] : List (List Char × List Char)))
      ↔ a < b ∧ x = a ∧ y = b := by
  split_ifs with h
  · simp [h, Prod.ext_iff]
  · simp [h]

theorem mem_consideredPairs {keys : List (List Char)} {x y : List Char} :
    (x, y) ∈ consideredPairs keys ↔ x ∈ keys ∧ y ∈ keys ∧ x < y := by
  simp only [consideredPairs, List.mem_flatMap, mem_pairGuard]
  constructor
  · rintro ⟨a, ha, b, hb, hab, rfl, rfl⟩
    exact ⟨ha, hb, hab⟩
  · rintro ⟨hx, hy, hxy⟩
    exact ⟨x, hx, y, hy, hxy, rfl, rfl⟩

theorem count_pairGuard (a b x y : List Char) :
    List.count (a, b) (if x < y then [(x, y)] else []) =
      if (x, y) = (a, b) ∧ x < y then 1 else 0 := by
  by_cases hxy : x < y
  · by_cases hpair : (x, y) = (a, b)
    · simp [hxy, hpair, Prod.ext_iff.mp hpair, List.count_cons]
    · simp [hxy, hpair, List.count_cons, fun hc : (a, b) = (x, y) => hpair hc.symm]
  · simp [hxy]

theorem count_pairGuard_flatMap (a b x : List Char) :
    ∀ l : List (List Char),
      (l.flatMap (fun y => if x < y then [(x, y)] else [])).count (a, b)
        = if x = a ∧ x < b then l.count b else 0 := by
  intro l
  induction l with
  | nil => simp
  | cons y rest ih =>
    rw [List.flatMap_cons, List.count_append, ih, count_pairGuard, List.count_cons]
    by_cases hxa : x = a
    · subst hxa
      by_cases hxb : x < b
      · by_cases hyb : y = b
        · subst hyb
          simp [hxb]
          omega
        · simp [hxb, hyb, Prod.ext_iff]
      · have hp : ¬((x, y) = (x, b) ∧ x < y) := by
          intro hc
          rw [Prod.mk.injEq] at hc
          exact hxb (hc.1.2 ▸ hc.2)
        have hq : ¬(x = x ∧ x < b) := fun hc => hxb hc.2
        rw [if_neg hp, if_neg hq, if_neg hq]
    · have hp : ¬((x, y) = (a, b) ∧ x < y) := by
        intro hc
        rw [Prod.mk.injEq] at hc
        exact hxa hc.1.1
      have hq : ¬(x = a ∧ x < b) := fun hc => hxa hc.1
      rw [if_neg hp, if_neg hq, if_neg hq]

theorem count_consideredPairs (a b : List Char) (inner : List (List Char)) :
    ∀ outer : List (List Char),
      (outer.flatMap (fun x => inner.flatMap (fun y => if x < y then [(x, y)] else []))).count
          (a, b)
        = outer.count a * (if a < b then inner.count b else 0) := by
  intro outer
  induction outer with
  | nil => simp
  | cons x rest ih =>
    rw [List.flatMap_cons, List.count_append, ih, count_pairGuard_flatMap, List.count_cons]
    by_cases hxa : x = a
    · subst hxa
      by_cases hab : x < b
      · rw [if_pos ⟨rfl, hab⟩, if_pos hab, beq_self_eq_true, if_pos rfl]
        ring
      · have hp : ¬(x = x ∧ x < b) := fun hc => hab hc.2
        rw [if_neg hp, if_neg hab, beq_self_eq_true, if_pos rfl]
        ring
    · have hp : ¬(x = a ∧ x < b) := fun hc => hxa hc.1
      rw [if_neg hp, beq_eq_false_iff_ne.mpr hxa, if_neg Bool.false_ne_true]
      ring

theorem count_one_of_nodup {l : List (List Char)} {a : List Char}
    (hnd : l.Nodup) (ha : a ∈ l) : l.count a = 1 := by
  induction l with
  | nil => cases ha
  | cons b rest ih =>
    rw [List.count_cons]
    rcases List.mem_cons.mp ha with rfl | hmem
    · have hnotin : a ∉ rest := (List.nodup_cons.mp hnd).1
      rw [List.count_eq_zero.mpr hnotin, beq_self_eq_true, if_pos rfl]
    · have hba : b ≠ a := by
        intro h
        exact (List.nodup_cons.mp hnd).1 (h ▸ hmem)
      rw [beq_eq_false_iff_ne.mpr hba, if_neg Bool.false_ne_true,
        ih (List.nodup_cons.mp hnd).2 hmem]

/-- C6: the matcher's double loop, guarded by `image1 < image2`, never
compares an image with itself, never yields both orderings of a pair, and
(for a dictionary, whose keys are distinct) yields each unordered pair of
distinct keys exactly once, namely in its lexicographically increasing
orientation. -/
theorem C6_pairs_unique (keys : List (List Char)) (hnd : keys.Nodup) :
    (∀ p : List Char, (p, p) ∉ consideredPairs keys)
    ∧ (∀ a b : List Char, (a, b) ∈ consideredPairs keys → (b, a) ∉ consideredPairs keys)
    ∧ (∀ a b : List Char, a ∈ keys → b ∈ keys → a < b →
        (consideredPairs keys).count (a, b) = 1
        ∧ (b, a) ∉ consideredPairs keys) := by
  refine ⟨?_, ?_, ?_⟩
  · intro p hp
    exact lt_irrefl p (mem_consideredPairs.mp hp).2.2
  · intro a b hab hba
    exact lt_asymm (mem_consideredPairs.mp hab).2.2 (mem_consideredPairs.mp hba).2.2
  · intro a b ha hb hab
    refine ⟨?_, ?_⟩
    · rw [consideredPairs, count_consideredPairs, count_one_of_nodup hnd ha,
        if_pos hab, count_one_of_nodup hnd hb]
    · intro hba
      exact lt_asymm hab (mem_consideredPairs.mp hba).2.2

theorem C6_pairs_unique_witness :
    (consideredPairs [("b.jpg").data, ("a.jpg").data]).count (("a.jpg").data, ("b.jpg").data) = 1
    ∧ (("b.jpg").data, ("a.jpg").data) ∉ consideredPairs [("b.jpg").data, ("a.jpg").data] :=
  (C6_pairs_unique [("b.jpg").data, ("a.jpg").data] (by decide)).2.2 ("a.jpg").data ("b.jpg").data
    (by decide) (by decide) (by decide)

/-- C9: when the accumulator lists are all empty (no field value was parsed
from either image), `", ".join` of the empty list is `""` and splitting it
on `", "` yields `[""]`, so each merged list is the singleton `[""]` rather
than the empty list, and `apply_metadata` is still invoked with one bare
additive directive (`-Keywords+=` with empty value, etc.) per field. -/
theorem C9_empty_merge (out1 out2 : List Char) (p : List Char)
    (hacc : processFile (processFile initAcc out1) out2 = initAcc) :
    merge_metadata out1 out2 = ([[]], [[]], [[]])
    ∧ apply_metadata p [[]] [[]] [[]] = baseParams ++ [kwFlag, subjFlag, hierFlag, p] := by
  constructor
  · simp only [merge_metadata, hacc]
    decide
  · simp [apply_metadata]

theorem C9_empty_merge_witness :
    merge_metadata ("junk").data ("junk").data = ([[]], [[]], [[]]) :=
  (C9_empty_merge ("junk").data ("junk").data [] (by decide)).1

/-- C10: for a line of the form `name ++ ": " ++ value` (the name free of
`": "`, the line free of line breaks), `split(": ")[1]` extracts only the
segment of `value` before its first `": "` occurrence: the parsed field
value is a prefix of the true value, and a proper one whenever the value
itself contains `": "`. -/
theorem C10_value_truncated (name value : List Char)
    (hname : hasPair ':' ' ' name = false)
    (hline : hasPair '\r' '\n' (name ++ ':' :: ' ' :: value) = false) :
    ∃ v ts, split2 ':' ' ' value = v :: ts
      ∧ getField (name ++ ':' :: ' ' :: value) 0 = some v
      ∧ v <+: value
      ∧ (hasPair ':' ' ' value = true → v ≠ value) := by
  cases hv : split2 ':' ' ' value with
  | nil => exact absurd hv (split2_ne_nil _ _ _)
  | cons v ts =>
    have hlines : split2 '\r' '\n' (name ++ ':' :: ' ' :: value)
        = [name ++ ':' :: ' ' :: value] := split2_of_hasPair_eq_false _ hline
    have hsplit : split2 ':' ' ' (name ++ ':' :: ' ' :: value) = name :: v :: ts := by
      rw [split2_append_sep (by decide) value name, split2_of_hasPair_eq_false name hname, hv]
      rfl
    refine ⟨v, ts, rfl, ?_, split2_head_isPre value hv, ?_⟩
    · rw [getField, hlines]
      simp [hsplit]
    · intro hpair hcontra
      have hlt := split2_head_lt_of_hasPair value hpair hv
      rw [hcontra] at hlt
      omega

theorem C10_value_truncated_witness :
    ∃ v ts, split2 ':' ' ' ("cat: pet").data = v :: ts
      ∧ getField (("Keywords ").data ++ ':' :: ' ' :: ("cat: pet").data) 0 = some v
      ∧ v <+: ("cat: pet").data
      ∧ (hasPair ':' ' ' ("cat: pet").data = true → v ≠ ("cat: pet").data) :=
  C10_value_truncated ("Keywords ").data ("cat: pet").data (by decide) (by decide)

/-- C4 (counterexample): for an image whose exiftool output has a Keywords
line and a HierarchicalSubject line but no Subject line (paired with an
image whose output parses nothing), the claim predicts the merged Subject
contains nothing from this image and the merged HierarchicalSubject
contains `h`; instead the code, parsing by line position, records `h` (the
HierarchicalSubject value) as the Subject and nothing as the
HierarchicalSubject. -/
theorem C4_counterexample :
    ("h").data ∈ (merge_metadata
        ("Keywords: cat\r\nHierarchicalSubject: h").data ("").data).2.1
    ∧ ("h").data ∉ (merge_metadata
        ("Keywords: cat\r\nHierarchicalSubject: h").data ("").data).2.2
    ∧ (merge_metadata ("Keywords: cat\r\nHierarchicalSubject: h").data ("").data).2.2
      = [[]] := by
  decide

/-- C4 (amended): parsing is positional, not name-based. For an image
whose output has exactly two `": "`-separated lines (e.g. the Subject line
is missing while Keywords and HierarchicalSubject are present), the first
line's value is recorded as the Keywords, the second line's value -- the
HierarchicalSubject's -- is recorded as the Subject, and the image
contributes nothing to HierarchicalSubject (the third lookup raises
`IndexError`, ending that image's parse). -/
theorem C4_positional_parse (acc : ParseAcc) (out l1 l2 n1 v1 n2 v2 : List Char)
    (hlines : split2 '\r' '\n' out = [l1, l2])
    (h1 : split2 ':' ' ' l1 = [n1, v1])
    (h2 : split2 ':' ' ' l2 = [n2, v2]) :
    processFile acc out = ⟨acc.keywords ++ [v1], acc.subject ++ [v2], acc.hier⟩ := by
  have g0 : getField out 0 = some v1 := by
    rw [getField, hlines]
    simp [h1]
  have g1 : getField out 1 = some v2 := by
    rw [getField, hlines]
    simp [h2]
  have g2 : getField out 2 = none := by
    rw [getField, hlines]
    rfl
  simp [processFile, g0, g1, g2]

theorem C4_positional_parse_witness :
    processFile initAcc ("Keywords: cat\r\nHierarchicalSubject: h").data
      = ⟨[("cat").data], [("h").data], []⟩ := by
  have h := C4_positional_parse initAcc ("Keywords: cat\r\nHierarchicalSubject: h").data
    ("Keywords: cat").data ("HierarchicalSubject: h").data
    ("Keywords").data ("cat").data ("HierarchicalSubject").data ("h").data
    (by decide) (by decide) (by decide)
  rw [h]
  rfl

/-- C8 (counterexample): the invocation `merge_image_metadata.py -v` has no
FOLDER argument, yet `main` does not print the usage text and exit with
status 1: `len(sys.argv) = 2` passes the count check and the script
proceeds with the empty folder path and verbose logging. -/
theorem C8_counterexample :
    pymain ["prog", "-v"] = MainResult.run "" true
    ∧ pymain ["prog", "-v"] ≠ MainResult.usageExit := by
  decide

/-- C8 (amended): `main` prints the usage text and exits with status 1
exactly when the argument count (program name included) is not 2 or 3 --
the check is purely count-based, so a missing FOLDER with `-v` present
still proceeds (with the empty folder), and any count-valid invocation
proceeds to process a folder. -/
theorem C8_argcount (argv : List String) :
    (pymain argv = MainResult.usageExit ↔ (argv.length ≠ 2 ∧ argv.length ≠ 3))
    ∧ ((argv.length = 2 ∨ argv.length = 3) →
        ∃ folder verbose, pymain argv = MainResult.run folder verbose) := by
  by_cases h : argv.length ≠ 2 ∧ argv.length ≠ 3
  · rw [pymain, if_pos h]
    constructor
    · simp [h]
    · intro hc
      rcases hc with hc | hc
      · exact absurd hc h.1
      · exact absurd hc h.2
  · rw [pymain, if_neg h]
    constructor
    · constructor
      · intro hc
        exact MainResult.noConfusion hc
      · intro hc
        exact absurd hc h
    · intro _
      exact ⟨_, _, rfl⟩

theorem C8_argcount_witness :
    ∃ folder verbose, pymain ["prog", "pics"] = MainResult.run folder verbose :=
  (C8_argcount ["prog", "pics"]).2 (Or.inl rfl)

/-- C2: for any two entries of the hash dictionary whose fingerprints are
within the (default) threshold, the merge step computes one merged triple
for the pair and invokes `apply_metadata` on both images with exactly that
triple -- the two writes receive identical keywords, subjects and
hierarchical-subject arguments. -/
theorem C2_pair_written_identically (images : List (List Char × List Bool))
    (readOut : List Char → List Char) (a b : List Char) (ha hb : List Bool)
    (hma : (a, ha) ∈ images) (hmb : (b, hb) ∈ images) (hab : a < b)
    (hcmp : compare_image_hashes ha hb 1 = true) :
    (a, merge_metadata (readOut a) (readOut b)) ∈ compare_all_images images readOut
    ∧ (b, merge_metadata (readOut a) (readOut b)) ∈ compare_all_images images readOut := by
  constructor <;>
  · rw [compare_all_images, List.mem_flatMap]
    refine ⟨(a, ha), hma, ?_⟩
    rw [List.mem_flatMap]
    refine ⟨(b, hb), hmb, ?_⟩
    simp [hab, hcmp]

theorem C2_pair_written_identically_witness :
    ((("a.jpg").data,
        merge_metadata ("Keywords: cat\r\nSubject: s\r\nHierarchicalSubject: hs").data
          ("Keywords: dog\r\nSubject: s\r\nHierarchicalSubject: hs2").data)
      ∈ compare_all_images [((("a.jpg").data : List Char), [true]), ((("b.jpg").data), [true])]
        (fun p => if p = ("a.jpg").data
          then ("Keywords: cat\r\nSubject: s\r\nHierarchicalSubject: hs").data
          else ("Keywords: dog\r\nSubject: s\r\nHierarchicalSubject: hs2").data))
    ∧ ((("b.jpg").data,
        merge_metadata ("Keywords: cat\r\nSubject: s\r\nHierarchicalSubject: hs").data
          ("Keywords: dog\r\nSubject: s\r\nHierarchicalSubject: hs2").data)
      ∈ compare_all_images [((("a.jpg").data : List Char), [true]), ((("b.jpg").data), [true])]
        (fun p => if p = ("a.jpg").data
          then ("Keywords: cat\r\nSubject: s\r\nHierarchicalSubject: hs").data
          else ("Keywords: dog\r\nSubject: s\r\nHierarchicalSubject: hs2").data)) :=
  C2_pair_written_identically _ _ ("a.jpg").data ("b.jpg").data [true] [true]
    (by decide) (by decide) (by decide) (by decide)

/-- C3 (counterexample): with a matched pair whose first image's exiftool
output (`junk`) has no `": "` -- so the very first field access raises
`IndexError` -- the pair is NOT skipped: `merge_metadata` still returns the
second image's values and `apply_metadata` is invoked on both images of
the pair, contradicting the claim that no metadata is written. -/
theorem C3_counterexample :
    getField ("junk").data 0 = none
    ∧ compare_all_images [((("a.jpg").data : List Char), [true]), ((("b.jpg").data), [true])]
        (fun p => if p = ("a.jpg").data then ("junk").data
          else ("Keywords: k\r\nSubject: s\r\nHierarchicalSubject: hs").data)
      = [(("a.jpg").data, ([("k").data], [("s").data], [("hs").data])),
         (("b.jpg").data, ([("k").data], [("s").data], [("hs").data]))] := by
  decide

/-- C3 (amended): an `IndexError` while parsing one image's fields only
ends that image's parse (`except IndexError: continue` moves to the next
file of the pair); the pair is not skipped -- the merge proceeds with the
values parsed from the other image and `apply_metadata` is still invoked
on both images, and the folder run continues. -/
theorem C3_continue_not_skip (images : List (List Char × List Bool))
    (readOut : List Char → List Char) (a b : List Char) (ha hb : List Bool)
    (hma : (a, ha) ∈ images) (hmb : (b, hb) ∈ images) (hab : a < b)
    (hcmp : compare_image_hashes ha hb 1 = true)
    (hfail : getField (readOut a) 0 = none) :
    merge_metadata (readOut a) (readOut b)
      = (mergeField (processFile initAcc (readOut b)).keywords,
         mergeField (processFile initAcc (readOut b)).subject,
         mergeField (processFile initAcc (readOut b)).hier)
    ∧ (a, merge_metadata (readOut a) (readOut b)) ∈ compare_all_images images readOut
    ∧ (b, merge_metadata (readOut a) (readOut b)) ∈ compare_all_images images readOut := by
  have hskip : processFile initAcc (readOut a) = initAcc := by
    simp [processFile, hfail]
  refine ⟨?_, ?_, ?_⟩
  · simp only [merge_metadata, hskip]
  all_goals
    rw [compare_all_images, List.mem_flatMap]
    refine ⟨(a, ha), hma, ?_⟩
    rw [List.mem_flatMap]
    refine ⟨(b, hb), hmb, ?_⟩
    simp [hab, hcmp]

theorem C3_continue_not_skip_witness :
    (("a.jpg").data,
        merge_metadata ("junk").data ("Keywords: k\r\nSubject: s\r\nHierarchicalSubject: hs").data)
      ∈ compare_all_images [((("a.jpg").data : List Char), [true]), ((("b.jpg").data), [true])]
        (fun p => if p = ("a.jpg").data then ("junk").data
          else ("Keywords: k\r\nSubject: s\r\nHierarchicalSubject: hs").data) :=
  (C3_continue_not_skip _ _ ("a.jpg").data ("b.jpg").data [true] [true]
    (by decide) (by decide) (by decide) (by decide) (by decide)).2.1

/-- Any value split out of any accumulated field string survives into the
merged (join-split-dedup) list. -/
theorem mem_mergeField {v t : List Char} {vals : List (List Char)}
    (ht : t ∈ vals) (hv : v ∈ split2 ',' ' ' t) : v ∈ mergeField vals := by
  rw [mergeField, List.mem_dedup]
  have hne : vals ≠ [] := by
    rintro rfl
    cases ht
  rw [split2_joinSep (by decide) vals hne]
  exact List.mem_flatMap.mpr ⟨t, ht, hv⟩

/-- Two write directives whose flags differ in their second character are
never prefixes of one another, whatever the appended value. -/
theorem flag_cross_free (c1 c2 : Char) (r1 r2 x : List Char) (hne : c1 ≠ c2) :
    ¬ ('-' :: c1 :: r1) <+: (('-' :: c2 :: r2) ++ x) := by
  intro hpre
  rw [List.cons_append, List.cons_prefix_cons] at hpre
  rcases hpre with ⟨-, hpre⟩
  rw [List.cons_append, List.cons_prefix_cons] at hpre
  exact hne hpre.1

theorem filter_kwFlag (p : List Char) (k s h : List (List Char))
    (hp : kwFlag.isPrefixOf p = false) :
    (apply_metadata p k s h).filter (fun q => kwFlag.isPrefixOf q)
      = k.map (fun v => kwFlag ++ v) := by
  rw [apply_metadata, List.filter_append, List.filter_append, List.filter_append,
    List.filter_append]
  have hbase : baseParams.filter (fun q => kwFlag.isPrefixOf q) = [] := by decide
  have hk : (k.map (fun v => kwFlag ++ v)).filter (fun q => kwFlag.isPrefixOf q)
      = k.map (fun v => kwFlag ++ v) := by
    rw [List.filter_eq_self]
    intro q hq
    obtain ⟨v, hv, rfl⟩ := List.mem_map.mp hq
    exact List.isPrefixOf_iff_prefix.mpr (List.prefix_append _ _)
  have hs : (s.map (fun v => subjFlag ++ v)).filter (fun q => kwFlag.isPrefixOf q) = [] := by
    rw [List.filter_eq_nil_iff]
    intro q hq hf
    obtain ⟨v, hv, rfl⟩ := List.mem_map.mp hq
    exact flag_cross_free 'K' 'S' ("eywords+=").data ("ubject+=").data v (by decide)
      (List.isPrefixOf_iff_prefix.mp hf)
  have hh : (h.map (fun v => hierFlag ++ v)).filter (fun q => kwFlag.isPrefixOf q) = [] := by
    rw [List.filter_eq_nil_iff]
    intro q hq hf
    obtain ⟨v, hv, rfl⟩ := List.mem_map.mp hq
    exact flag_cross_free 'K' 'H' ("eywords+=").data ("ierarchicalSubject+=").data v (by decide)
      (List.isPrefixOf_iff_prefix.mp hf)
  have hpth : ([p] : List (List Char)).filter (fun q => kwFlag.isPrefixOf q) = [] := by
    simp [List.filter_cons, hp]
  rw [hbase, hk, hs, hh, hpth]
  simp

theorem filter_subjFlag (p : List Char) (k s h : List (List Char))
    (hp : subjFlag.isPrefixOf p = false) :
    (apply_metadata p k s h).filter (fun q => subjFlag.isPrefixOf q)
      = s.map (fun v => subjFlag ++ v) := by
  rw [apply_metadata, List.filter_append, List.filter_append, List.filter_append,
    List.filter_append]
  have hbase : baseParams.filter (fun q => subjFlag.isPrefixOf q) = [] := by decide
  have hk : (k.map (fun v => kwFlag ++ v)).filter (fun q => subjFlag.isPrefixOf q) = [] := by
    rw [List.filter_eq_nil_iff]
    intro q hq hf
    obtain ⟨v, hv, rfl⟩ := List.mem_map.mp hq
    exact flag_cross_free 'S' 'K' ("ubject+=").data ("eywords+=").data v (by decide)
      (List.isPrefixOf_iff_prefix.mp hf)
  have hs : (s.map (fun v => subjFlag ++ v)).filter (fun q => subjFlag.isPrefixOf q)
      = s.map (fun v => subjFlag ++ v) := by
    rw [List.filter_eq_self]
    intro q hq
    obtain ⟨v, hv, rfl⟩ := List.mem_map.mp hq
    exact List.isPrefixOf_iff_prefix.mpr (List.prefix_append _ _)
  have hh : (h.map (fun v => hierFlag ++ v)).filter (fun q => subjFlag.isPrefixOf q) = [] := by
    rw [List.filter_eq_nil_iff]
    intro q hq hf
    obtain ⟨v, hv, rfl⟩ := List.mem_map.mp hq
    exact flag_cross_free 'S' 'H' ("ubject+=").data ("ierarchicalSubject+=").data v (by decide)
      (List.isPrefixOf_iff_prefix.mp hf)
  have hpth : ([p] : List (List Char)).filter (fun q => subjFlag.isPrefixOf q) = [] := by
    simp [List.filter_cons, hp]
  rw [hbase, hk, hs, hh, hpth]
  simp

theorem filter_hierFlag (p : List Char) (k s h : List (List Char))
    (hp : hierFlag.isPrefixOf p = false) :
    (apply_metadata p k s h).filter (fun q => hierFlag.isPrefixOf q)
      = h.map (fun v => hierFlag ++ v) := by
  rw [apply_metadata, List.filter_append, List.filter_append, List.filter_append,
    List.filter_append]
  have hbase : baseParams.filter (fun q => hierFlag.isPrefixOf q) = [] := by decide
  have hk : (k.map (fun v => kwFlag ++ v)).filter (fun q => hierFlag.isPrefixOf q) = [] := by
    rw [List.filter_eq_nil_iff]
    intro q hq hf
    obtain ⟨v, hv, rfl⟩ := List.mem_map.mp hq
    exact flag_cross_free 'H' 'K' ("ierarchicalSubject+=").data ("eywords+=").data v (by decide)
      (List.isPrefixOf_iff_prefix.mp hf)
  have hs : (s.map (fun v => subjFlag ++ v)).filter (fun q => hierFlag.isPrefixOf q) = [] := by
    rw [List.filter_eq_nil_iff]
    intro q hq hf
    obtain ⟨v, hv, rfl⟩ := List.mem_map.mp hq
    exact flag_cross_free 'H' 'S' ("ierarchicalSubject+=").data ("ubject+=").data v (by decide)
      (List.isPrefixOf_iff_prefix.mp hf)
  have hh : (h.map (fun v => hierFlag ++ v)).filter (fun q => hierFlag.isPrefixOf q)
      = h.map (fun v => hierFlag ++ v) := by
    rw [List.filter_eq_self]
    intro q hq
    obtain ⟨v, hv, rfl⟩ := List.mem_map.mp hq
    exact List.isPrefixOf_iff_prefix.mpr (List.prefix_append _ _)
  have hpth : ([p] : List (List Char)).filter (fun q => hierFlag.isPrefixOf q) = [] := by
    simp [List.filter_cons, hp]
  rw [hbase, hk, hs, hh, hpth]
  simp

/-- C1: each merged list is duplicate-free and contains every value split
out of every field string parsed from either image (set union: nothing
parsed is lost), and the write invocation for any image consists of
exactly one additive directive per merged value for each of the three
fields (assuming the image path itself does not look like a directive). -/
theorem C1_union_nodup_write (out1 out2 p : List Char)
    (hpk : kwFlag.isPrefixOf p = false)
    (hps : subjFlag.isPrefixOf p = false)
    (hph : hierFlag.isPrefixOf p = false) :
    ((merge_metadata out1 out2).1.Nodup ∧ (merge_metadata out1 out2).2.1.Nodup
      ∧ (merge_metadata out1 out2).2.2.Nodup)
    ∧ (∀ v t, t ∈ (processFile (processFile initAcc out1) out2).keywords →
        v ∈ split2 ',' ' ' t → v ∈ (merge_metadata out1 out2).1)
    ∧ (∀ v t, t ∈ (processFile (processFile initAcc out1) out2).subject →
        v ∈ split2 ',' ' ' t → v ∈ (merge_metadata out1 out2).2.1)
    ∧ (∀ v t, t ∈ (processFile (processFile initAcc out1) out2).hier →
        v ∈ split2 ',' ' ' t → v ∈ (merge_metadata out1 out2).2.2)
    ∧ ((apply_metadata p (merge_metadata out1 out2).1 (merge_metadata out1 out2).2.1
          (merge_metadata out1 out2).2.2).filter (fun q => kwFlag.isPrefixOf q)
        = (merge_metadata out1 out2).1.map (fun v => kwFlag ++ v))
    ∧ ((apply_metadata p (merge_metadata out1 out2).1 (merge_metadata out1 out2).2.1
          (merge_metadata out1 out2).2.2).filter (fun q => subjFlag.isPrefixOf q)
        = (merge_metadata out1 out2).2.1.map (fun v => subjFlag ++ v))
    ∧ ((apply_metadata p (merge_metadata out1 out2).1 (merge_metadata out1 out2).2.1
          (merge_metadata out1 out2).2.2).filter (fun q => hierFlag.isPrefixOf q)
        = (merge_metadata out1 out2).2.2.map (fun v => hierFlag ++ v)) := by
  refine ⟨⟨List.nodup_dedup _, List.nodup_dedup _, List.nodup_dedup _⟩, ?_, ?_, ?_,
    filter_kwFlag p _ _ _ hpk, filter_subjFlag p _ _ _ hps, filter_hierFlag p _ _ _ hph⟩
  · intro v t ht hv
    exact mem_mergeField ht hv
  · intro v t ht hv
    exact mem_mergeField ht hv
  · intro v t ht hv
    exact mem_mergeField ht hv

theorem C1_union_nodup_write_witness :
    ("cat").data ∈ (merge_metadata
      ("Keywords: cat, pet\r\nSubject: s\r\nHierarchicalSubject: hs").data
      ("Keywords: pet, dog\r\nSubject: s2\r\nHierarchicalSubject: hs2").data).1 :=
  (C1_union_nodup_write
      ("Keywords: cat, pet\r\nSubject: s\r\nHierarchicalSubject: hs").data
      ("Keywords: pet, dog\r\nSubject: s2\r\nHierarchicalSubject: hs2").data
      ("a.jpg").data (by decide) (by decide) (by decide)).2.1
    ("cat").data ("cat, pet").data (by decide) (by decide)

theorem mergeField_ne_nil (vals : List (List Char)) : mergeField vals ≠ [] := by
  rw [mergeField, Ne, List.dedup_eq_nil]
  exact split2_ne_nil ',' ' ' _

theorem mergeField_tokens (vals : List (List Char)) :
    ∀ t ∈ mergeField vals, hasPair ',' ' ' t = false := by
  intro t ht
  rw [mergeField, List.mem_dedup] at ht
  exact hasPair_of_mem_split2 _ t ht

/-- Re-merging two copies of the `", "`-join of an already-merged list
reproduces exactly that list's elements: the pieces of a split are
separator-free, so joining and re-splitting them is the identity. -/
theorem mergeField_rejoin (m : List (List Char)) (hne : m ≠ [])
    (htoks : ∀ t ∈ m, hasPair ',' ' ' t = false) :
    ∀ x, x ∈ mergeField [joinSep ',' ' ' m, joinSep ',' ' ' m] ↔ x ∈ m := by
  intro x
  rw [mergeField, List.mem_dedup]
  have hjoin : joinSep ',' ' ' [joinSep ',' ' ' m, joinSep ',' ' ' m]
      = joinSep ',' ' ' m ++ ',' :: ' ' :: joinSep ',' ' ' m := rfl
  rw [hjoin, split2_append_sep (by decide), split2_joinSep_eq (by decide) m hne htoks,
    List.mem_append, or_self]

/-- C5: merging is idempotent -- a second run of `merge_metadata` on
inputs that already report the merged union (each field string the
`", "`-join of the first run's merged list, for both images) produces
lists with exactly the same elements as the first run: no new value
appears and none disappears. -/
theorem C5_idempotent (out1 out2 out1' out2' : List Char)
    (hre : processFile (processFile initAcc out1') out2'
      = ⟨[joinSep ',' ' ' (merge_metadata out1 out2).1,
          joinSep ',' ' ' (merge_metadata out1 out2).1],
         [joinSep ',' ' ' (merge_metadata out1 out2).2.1,
          joinSep ',' ' ' (merge_metadata out1 out2).2.1],
         [joinSep ',' ' ' (merge_metadata out1 out2).2.2,
          joinSep ',' ' ' (merge_metadata out1 out2).2.2]⟩) :
    (∀ x, x ∈ (merge_metadata out1' out2').1 ↔ x ∈ (merge_metadata out1 out2).1)
    ∧ (∀ x, x ∈ (merge_metadata out1' out2').2.1 ↔ x ∈ (merge_metadata out1 out2).2.1)
    ∧ (∀ x, x ∈ (merge_metadata out1' out2').2.2 ↔ x ∈ (merge_metadata out1 out2).2.2) := by
  have h1 : (merge_metadata out1' out2').1
      = mergeField [joinSep ',' ' ' (merge_metadata out1 out2).1,
          joinSep ',' ' ' (merge_metadata out1 out2).1] := by
    simp only [merge_metadata, hre]
  have h2 : (merge_metadata out1' out2').2.1
      = mergeField [joinSep ',' ' ' (merge_metadata out1 out2).2.1,
          joinSep ',' ' ' (merge_metadata out1 out2).2.1] := by
    simp only [merge_metadata, hre]
  have h3 : (merge_metadata out1' out2').2.2
      = mergeField [joinSep ',' ' ' (merge_metadata out1 out2).2.2,
          joinSep ',' ' ' (merge_metadata out1 out2).2.2] := by
    simp only [merge_metadata, hre]
  refine ⟨?_, ?_, ?_⟩
  · intro x
    rw [h1]
    exact mergeField_rejoin _ (mergeField_ne_nil _) (mergeField_tokens _) x
  · intro x
    rw [h2]
    exact mergeField_rejoin _ (mergeField_ne_nil _) (mergeField_tokens _) x
  · intro x
    rw [h3]
    exact mergeField_rejoin _ (mergeField_ne_nil _) (mergeField_tokens _) x

theorem C5_idempotent_witness :
    ("cat").data ∈ (merge_metadata
        ("Keywords: cat, pet, dog\r\nSubject: s\r\nHierarchicalSubject: hs, hs2").data
        ("Keywords: cat, pet, dog\r\nSubject: s\r\nHierarchicalSubject: hs, hs2").data).1
    ↔ ("cat").data ∈ (merge_metadata
        ("Keywords: cat, pet\r\nSubject: s\r\nHierarchicalSubject: hs").data
        ("Keywords: pet, dog\r\nSubject: s\r\nHierarchicalSubject: hs2").data).1 :=
  (C5_idempotent
      ("Keywords: cat, pet\r\nSubject: s\r\nHierarchicalSubject: hs").data
      ("Keywords: pet, dog\r\nSubject: s\r\nHierarchicalSubject: hs2").data
      ("Keywords: cat, pet, dog\r\nSubject: s\r\nHierarchicalSubject: hs, hs2").data
      ("Keywords: cat, pet, dog\r\nSubject: s\r\nHierarchicalSubject: hs, hs2").data
      (by decide)).1 ("cat").data

end MergeImageMetadata
